import Mathlib

/-!
Verification development for the M32 bot backend (TypeScript sources under
`src/services/agent-router.service.ts` and `src/services/personal.service.ts`).
The definitions below are a shallow embedding of the routing, scoring,
extraction, and context-merging logic; scores are modelled over `ℚ` and
strings over `List Char`.
-/

namespace M32

/-- JavaScript `Math.min` on two rational scores. -/
def jsMin (a b : ℚ) : ℚ := if a ≤ b then a else b

/-- JavaScript `Math.max` on two rational scores. -/
def jsMax (a b : ℚ) : ℚ := if b ≤ a then a else b

/-- The apostrophe character, used to build keyword strings. -/
def aposC : Char := Char.ofNat 39

/-- One-character apostrophe string. -/
def sApos : String := String.singleton aposC

/-- Substring containment over character lists, mirroring JavaScript
`String.prototype.includes`. -/
def containsSub (pat : List Char) : List Char → Bool
  | [] => pat.isEmpty
  | c :: rest => pat.isPrefixOf (c :: rest) || containsSub pat rest

/-- Does a string keyword occur in the (already lowercased) message text?
Mirrors `messageLower.includes(keyword)`. -/
def kwHit (lower : List Char) (kw : String) : Bool :=
  containsSub kw.toList lower

/-- Characters that the JavaScript regex `.` does not match (line terminators). -/
def jsDotChar (c : Char) : Bool :=
  !(c == '\n' || c == '\r' || c == '\u2028' || c == '\u2029')

/-- `dotStarContains a b l` models the JavaScript regex fragment `a.*b`
tested against `l`: an occurrence of `a`, then a run of non-line-terminator
characters, then an occurrence of `b`. -/
def dotStarContains (a b l : List Char) : Bool :=
  (List.range (l.length + 1)).any (fun i =>
    a.isPrefixOf (l.drop i) &&
    (List.range (l.length + 1)).any (fun j =>
      decide (i + a.length ≤ j) && b.isPrefixOf (l.drop j) &&
      ((l.drop (i + a.length)).take (j - (i + a.length))).all jsDotChar))

/-- The fixed healthcare vocabulary from
`AgentRouterService.calculateHealthcareConfidence`, in source order. -/
def healthcareKeywords : List String :=
  ["health", "medical", "disease", "symptom", "treatment", "medicine",
   "doctor", "hospital", "patient", "covid", "coronavirus", "vaccine",
   "vaccination", "pandemic", "epidemic", "virus", "bacteria", "infection",
   "diagnosis", "therapy", "pharmaceutical", "drug", "medication",
   "prescription", "wellness", "nutrition", "diet", "exercise", "fitness",
   "mental health", "depression", "anxiety", "stress", "healthcare",
   "clinical", "surgery", "cancer", "diabetes", "heart disease",
   "blood pressure", "blood", "cholesterol", "immunity", "immune system",
   "allergy", "asthma", "screening", "checkup", "check-up",
   "preventive care", "preventative", "hiv", "aids", "tuberculosis",
   "malaria", "dengue", "alzheimer", "obesity", "flu", "influenza",
   "clinical trial", "drug approval", "fda", "who", "cdc", "pain", "chest",
   "emergency", "urgent", "severe", "bleeding", "poisoning", "scan",
   "ct scan", "mri", "x-ray", "ultrasound", "biopsy", "mammogram",
   "colonoscopy", "endoscopy", "blood test", "lab test", "imaging",
   "radiology", "procedure", "test", "exam", "physical", "appointment",
   "consult", "specialist", "physician", "nurse", "clinic",
   "emergency room", "er", "urgent care", "primary care", "paper", "study",
   "research", "article", "publication", "journal", "published", "blog",
   "science", "evidence", "findings"]

/-- Literal alternatives of the health-question regex
`/what is|how to|symptoms of|treatment for|cure for|prevent|risk of|should i|what.*screen/i`. -/
def healthQuestionPats : List String :=
  ["what is", "how to", "symptoms of", "treatment for", "cure for",
   "prevent", "risk of", "should i"]

/-- The health-question intent test (`hasHealthQuestions` in the source). -/
def hasHealthQuestions (lower : List Char) : Bool :=
  healthQuestionPats.any (kwHit lower) ||
    dotStarContains "what".toList "screen".toList lower

/-- Literal alternatives of the screening-intent regex
`/screening|checkup|check-up|physical|exam|test.*for|preventive|preventative/`. -/
def screeningPats : List String :=
  ["screening", "checkup", "check-up", "physical", "exam", "preventive",
   "preventative"]

/-- The screening/checkup intent test (`hasScreeningIntent` in the source). -/
def hasScreeningIntent (lower : List Char) : Bool :=
  screeningPats.any (kwHit lower) ||
    dotStarContains "test".toList "for".toList lower

/-- Literal alternatives of the news-intent regex
`/latest|news|recent|update|current|today|this week/`. -/
def newsPats : List String :=
  ["latest", "news", "recent", "update", "current", "today", "this week"]

/-- The recency/news intent test (`hasNewsIntent` in the source). -/
def hasNewsIntent (lower : List Char) : Bool :=
  newsPats.any (kwHit lower)

/-- `AgentRouterService.calculateHealthcareConfidence`, with JavaScript
number arithmetic modelled over `ℚ`. -/
def calculateHealthcareConfidence (message : String) : ℚ :=
  let messageLower := message.toList.map Char.toLower
  let keywordMatches :=
    (healthcareKeywords.filter (kwHit messageLower)).length
  let confidence : ℚ := jsMin ((keywordMatches : ℚ) / 2.5) 0.5
  let c1 := if hasHealthQuestions messageLower then confidence + 0.3 else confidence
  let c2 := if hasScreeningIntent messageLower then c1 + 0.4 else c1
  let c3 := if hasNewsIntent messageLower then c2 + 0.15 else c2
  jsMin c3 1

/-- The healthcare-overlap vocabulary from
`AgentRouterService.calculatePersonalConfidence`, in source order. -/
def healthcareIndicators : List String :=
  ["covid", "vaccine", "disease", "symptom", "treatment", "medical",
   "doctor", "hospital", "patient", "diagnosis", "therapy", "medication",
   "cancer", "diabetes", "health", "paper", "study", "research", "article",
   "published", "journal", "infection", "virus", "drug", "prescription",
   "blood"]

/-- Conversational-opener / self-disclosure keyword set
(`personalKeywords` in the source), in source order. -/
def personalKeywords : List String :=
  ["hello", "hi", "hey", "how are you", "what" ++ sApos ++ "s up", "thanks",
   "thank you", "my name is", "i am", "i" ++ sApos ++ "m", "i like",
   "i love", "i enjoy", "my favorite", "i work", "i live",
   "i" ++ sApos ++ "m from", "tell me about yourself", "who are you",
   "sorry", "excuse me"]

/-- Context-carrying noun keyword set (`contextKeywords` in the source). -/
def contextKeywords : List String :=
  ["name", "age", "live", "from", "interested", "like", "enjoy",
   "favorite", "work", "job"]

/-- `AgentRouterService.calculatePersonalConfidence` over `ℚ`. -/
def calculatePersonalConfidence (message : String) : ℚ :=
  let messageLower := message.toList.map Char.toLower
  if healthcareIndicators.any (kwHit messageLower) then 0.2
  else
    let hasPersonalKeywords := personalKeywords.any (kwHit messageLower)
    let hasContextInfo := contextKeywords.any (kwHit messageLower)
    if hasPersonalKeywords && hasContextInfo then 0.9
    else if hasPersonalKeywords then 0.7
    else if hasContextInfo then 0.8
    else 0.3

/-- The three handlers an inbound message can be dispatched to. -/
inductive Agent where
  | healthcare
  | personal
  | general
deriving DecidableEq, Repr

/-- The threshold and tie-break policy of `AgentRouterService.chat`
(the branch structure of lines 29-85 of the source). -/
def routeMessage (message : String) : Agent :=
  let healthcareScore := calculateHealthcareConfidence message
  let personalScore := calculatePersonalConfidence message
  let threshold : ℚ := 0.3
  if healthcareScore ≥ threshold ∧ healthcareScore > personalScore then
    Agent.healthcare
  else if personalScore ≥ threshold ∧ personalScore > healthcareScore then
    Agent.personal
  else
    Agent.general

/-- `UserContext` from `src/interface/types.ts`: all fields optional;
`none` models an absent key. -/
@[ext]
structure UserContext where
  name : Option String := none
  age : Option String := none
  location : Option String := none
  interests : Option (List String) := none
  favorites : Option (List (String × String)) := none
  profession : Option String := none
deriving DecidableEq, Repr

/-- JavaScript truthiness of an optional string field: present and
non-empty. -/
def strTruthy : Option String → Bool
  | some s => !(s == "")
  | none => false

/-- One step of the interests merge loop: append the incoming interest
only when it is not already present. -/
def interestStep (acc : List String) (i : String) : List String :=
  if i ∈ acc then acc else acc ++ [i]

/-- The interests merge loop of `PersonalService.mergeContext` (and the
identical loop in `AgentRouterService.updateContext`). -/
def mergeInterests (cur inc : List String) : List String :=
  inc.foldl interestStep cur

/-- JavaScript `favorites[key] = value` on an association list that
models a `Record<string, string>`: update the value in place when the key
exists, append otherwise. -/
def setKey (l : List (String × String)) (k v : String) :
    List (String × String) :=
  if k ∈ l.map Prod.fst then
    l.map (fun p => if p.1 = k then (k, v) else p)
  else l ++ [(k, v)]

/-- One step of the favorites merge loop: write the pair only when the
incoming value is truthy (non-empty). -/
def favStep (acc : List (String × String)) (kv : String × String) :
    List (String × String) :=
  if kv.2 == "" then acc else setKey acc kv.1 kv.2

/-- The favorites merge loop of `PersonalService.mergeContext`. -/
def mergeFavs (cur inc : List (String × String)) : List (String × String) :=
  inc.foldl favStep cur

/-- `PersonalService.mergeContext` (the body of
`AgentRouterService.updateContext` is identical): scalar fields are
overwritten only by truthy incoming values, interests are deduplicated and
appended, favorites are written per key for truthy values. -/
def mergeContext (cur inc : UserContext) : UserContext where
  name := if strTruthy inc.name then inc.name else cur.name
  age := if strTruthy inc.age then inc.age else cur.age
  location := if strTruthy inc.location then inc.location else cur.location
  profession :=
    if strTruthy inc.profession then inc.profession else cur.profession
  interests :=
    match inc.interests with
    | some l =>
        if 0 < l.length then some (mergeInterests (cur.interests.getD []) l)
        else cur.interests
    | none => cur.interests
  favorites :=
    match inc.favorites with
    | some favs => some (mergeFavs (cur.favorites.getD []) favs)
    | none => cur.favorites

/-- `ConversationHistory` from `src/interface/types.ts`. -/
structure ConversationHistory where
  user : String
  assistant : String
  timestamp : String
deriving DecidableEq, Repr

/-- The history update of `PersonalService.processMessage`: push the new
turn, then keep only the last 10 entries (`slice(-10)`) when the length
exceeds 10. -/
def pushTurn (h : List ConversationHistory) (t : ConversationHistory) :
    List ConversationHistory :=
  let h2 := h ++ [t]
  if 10 < h2.length then h2.drop (h2.length - 10) else h2

/-- Folding a sequence of turns through `pushTurn`, starting from the
empty history. -/
def historyFold (ts : List ConversationHistory) : List ConversationHistory :=
  ts.foldl pushTurn []

/-- Canned follow-up question for a missing name. -/
def qName : String := "What" ++ sApos ++ "s your name?"

/-- Canned follow-up question for a missing age. -/
def qAge : String := "How old are you?"

/-- Canned follow-up question for a missing location. -/
def qLoc : String := "Where are you from?"

/-- Canned follow-up question for missing interests. -/
def qInterests : String := "What are you interested in?"

/-- `PersonalService.generateFollowUpQuestions`: one canned question per
missing field (name, age, location, interests in that order), then
`slice(0, 2)`. -/
def generateFollowUpQuestions (ctx : UserContext) : List String :=
  let questions :=
    (if !(strTruthy ctx.name) then [qName] else []) ++
    (if !(strTruthy ctx.age) then [qAge] else []) ++
    (if !(strTruthy ctx.location) then [qLoc] else []) ++
    (if ctx.interests.getD [] = [] then [qInterests] else [])
  questions.take 2

/-- The number of present keys of a `UserContext` record
(`Object.keys(c).length` with absent fields modelled as `none`). -/
def keyCount (c : UserContext) : Nat :=
  (if c.name.isSome then 1 else 0) + (if c.age.isSome then 1 else 0) +
    (if c.location.isSome then 1 else 0) +
    (if c.interests.isSome then 1 else 0) +
    (if c.favorites.isSome then 1 else 0) +
    (if c.profession.isSome then 1 else 0)

/-- JavaScript object spread `{...base, ...inc}` over `UserContext`:
every key present in `inc` wins wholesale, regardless of its value. -/
def spreadCtx (base inc : UserContext) : UserContext where
  name := match inc.name with | some v => some v | none => base.name
  age := match inc.age with | some v => some v | none => base.age
  location := match inc.location with | some v => some v | none => base.location
  interests := match inc.interests with | some v => some v | none => base.interests
  favorites := match inc.favorites with | some v => some v | none => base.favorites
  profession :=
    match inc.profession with | some v => some v | none => base.profession

/-- The `initialContext` step at the top of `PersonalService.processMessage`:
spread the incoming context over the stored one when it has at least one
key, otherwise leave the stored context alone. -/
def applyInitialContext (stored init : UserContext) : UserContext :=
  if 0 < keyCount init then spreadCtx stored init else stored

/-- The characters matched by the JavaScript regex class `\s`
(whitespace and line terminators). -/
def jsSpaceChars : List Char :=
  [' ', '\t', '\n', '\r', '\u000B', '\u000C', '\u00A0', '\u1680', '\u2000',
   '\u2001', '\u2002', '\u2003', '\u2004', '\u2005', '\u2006', '\u2007',
   '\u2008', '\u2009', '\u200A', '\u2028', '\u2029', '\u202F', '\u205F',
   '\u3000', '\uFEFF']

/-- Is the character JavaScript whitespace (`\s`)? -/
def isJsSpace (c : Char) : Bool := jsSpaceChars.contains c

/-- A character of the capture class `[a-zA-Z\s]` of the name regex. -/
def isNameChar (c : Char) : Bool := c.isAlpha || isJsSpace c

/-- A character matching the terminator group `(?:\s|,|\.)` of the name
regex (the `$` alternative is handled at end of input). -/
def isTermChar (c : Char) : Bool := isJsSpace c || c == ',' || c == '.'

/-- Case-insensitive match of a (lowercase ASCII) pattern against the
start of the text, as done by a JavaScript regex literal with the `i`
flag and no `u` flag. -/
def ciAt : List Char → List Char → Bool
  | [], _ => true
  | _ :: _, [] => false
  | p :: ps, c :: cs => (c.toLower == p) && ciAt ps cs

/-- The literal part `my name is ` of the name regex
`/my name is ([a-zA-Z\s]+?)(?:\s|,|\.|$)/i`. -/
def namePat : List Char := "my name is ".toList

/-- The lazy quantifier `([a-zA-Z\s]+?)` after at least one captured
character: stop at the first terminator, extend through capture-class
characters, fail otherwise. -/
def lazyCaptureGo (acc : List Char) : List Char → Option (List Char)
  | [] => some acc
  | c :: cs =>
      if isTermChar c then some acc
      else if isNameChar c then lazyCaptureGo (acc ++ [c]) cs
      else none

/-- The capture `([a-zA-Z\s]+?)(?:\s|,|\.|$)` applied right after the
literal: at least one capture-class character, then lazy extension. -/
def lazyCapture : List Char → Option (List Char)
  | [] => none
  | c :: cs => if isNameChar c then lazyCaptureGo [c] cs else none

/-- Walk the literal pattern and the text together (case-insensitively),
then run the capture; `none` when the literal does not match here. -/
def matchNameAt : List Char → List Char → Option (List Char)
  | [], rest => lazyCapture rest
  | _ :: _, [] => none
  | p :: ps, c :: cs => if c.toLower == p then matchNameAt ps cs else none

/-- Attempt the full name regex at the current position. -/
def tryName (l : List Char) : Option (List Char) :=
  matchNameAt namePat l

/-- Leftmost-match scan of the name regex over the text, as JavaScript
`String.prototype.match` does for a non-global regex. -/
def scanName : List Char → Option (List Char)
  | [] => none
  | c :: cs =>
      match tryName (c :: cs) with
      | some cap => some cap
      | none => scanName cs

/-- JavaScript `String.prototype.trim` over a character list. -/
def trimChars (l : List Char) : List Char :=
  ((l.dropWhile isJsSpace).reverse.dropWhile isJsSpace).reverse

/-- The name field of `PersonalService.extractPersonalInfo` (and of the
identical `AgentRouterService.extractPersonalInfo`), over character
lists: first match of the name regex, trimmed. -/
def extractNameL (l : List Char) : Option (List Char) :=
  (scanName l).map trimChars

/-- The name field of `extractPersonalInfo` on strings. -/
def extractName (message : String) : Option String :=
  (extractNameL message.toList).map List.asString

/-- The character list of `"Alice"`. -/
def aliceL : List Char := "Alice".toList

/-- The character list of the phrase `"my name is Alice"`. -/
def midAlice : List Char := "my name is Alice".toList

/-- The §4.4 personal-domain scoring policy exactly as the spec words it:
healthcare-overlap short-circuit 0.2, both keyword sets 0.9, only the
conversational set 0.7, only the context-noun set 0.8, neither 0.3. -/
def specPersonalScore (message : String) : ℚ :=
  let lower := message.toList.map Char.toLower
  if healthcareIndicators.any (kwHit lower) then 0.2
  else if personalKeywords.any (kwHit lower) ∧ contextKeywords.any (kwHit lower)
    then 0.9
  else if personalKeywords.any (kwHit lower) ∧
      ¬(contextKeywords.any (kwHit lower)) then 0.7
  else if (¬personalKeywords.any (kwHit lower)) ∧
      contextKeywords.any (kwHit lower) then 0.8
  else 0.3

/-- The §4.4 healthcare scoring formula exactly as the spec words it:
base `min(hits / 2.5, 0.5)` plus the three intent bonuses, clamped to
`[0, 1]`. -/
def specHealthcareScore (message : String) : ℚ :=
  let lower := message.toList.map Char.toLower
  let hits := (healthcareKeywords.filter (kwHit lower)).length
  let raw := min ((hits : ℚ) / 2.5) 0.5 +
    (if hasHealthQuestions lower then 0.3 else 0) +
    (if hasScreeningIntent lower then 0.4 else 0) +
    (if hasNewsIntent lower then 0.15 else 0)
  max 0 (min raw 1)

/-- The §4.6 follow-up contract as the spec words it: one canned question
per missing field in the fixed order name, age, location, interests,
truncated to the first two. -/
def specFollowUps (ctx : UserContext) : List String :=
  (([((!(strTruthy ctx.name)), qName), ((!(strTruthy ctx.age)), qAge),
      ((!(strTruthy ctx.location)), qLoc),
      ((ctx.interests.getD []).isEmpty, qInterests)].filter
        (fun p => p.1)).map Prod.snd).take 2

/-- All entries carrying key `k` hold exactly the value `v`, and key `k`
is present: the state of an association list after `setKey _ k v`. -/
def stableFor (k v : String) (l : List (String × String)) : Prop :=
  (∀ e ∈ l, e.1 = k → e = (k, v)) ∧ k ∈ l.map Prod.fst

/-! ### Theorems -/

lemma jsMin_eq_min (a b : ℚ) : jsMin a b = min a b := by
  rw [jsMin, min_def]

/-- C1: the Router selects healthcare iff the healthcare score clears the
0.3 threshold and strictly beats the personal score; personal iff
symmetrically; ties and double-subthreshold cases fall to general. -/
theorem c1_routing_policy (m : String) :
    (routeMessage m = Agent.healthcare ↔
      (0.3:ℚ) ≤ calculateHealthcareConfidence m ∧
        calculatePersonalConfidence m < calculateHealthcareConfidence m) ∧
    (routeMessage m = Agent.personal ↔
      (0.3:ℚ) ≤ calculatePersonalConfidence m ∧
        calculateHealthcareConfidence m < calculatePersonalConfidence m) ∧
    (calculateHealthcareConfidence m = calculatePersonalConfidence m →
      routeMessage m = Agent.general) ∧
    (calculateHealthcareConfidence m < 0.3 ∧
        calculatePersonalConfidence m < 0.3 →
      routeMessage m = Agent.general) := by
  have hr : routeMessage m =
      if calculateHealthcareConfidence m ≥ (0.3:ℚ) ∧
          calculateHealthcareConfidence m > calculatePersonalConfidence m then
        Agent.healthcare
      else if calculatePersonalConfidence m ≥ (0.3:ℚ) ∧
          calculatePersonalConfidence m > calculateHealthcareConfidence m then
        Agent.personal
      else Agent.general := rfl
  set hs := calculateHealthcareConfidence m
  set ps := calculatePersonalConfidence m
  rw [hr]
  split_ifs with h1 h2
  · exact ⟨iff_of_true rfl ⟨h1.1, h1.2⟩,
      iff_of_false (by decide) (fun hc => absurd h1.2 (not_lt.mpr hc.2.le)),
      fun he => absurd h1.2 (by rw [he]; exact lt_irrefl ps),
      fun hlt => absurd h1.1 (not_le.mpr hlt.1)⟩
  · exact ⟨iff_of_false (by decide) (fun hc => h1 ⟨hc.1, hc.2⟩),
      iff_of_true rfl ⟨h2.1, h2.2⟩,
      fun he => absurd h2.2 (by rw [he]; exact lt_irrefl ps),
      fun hlt => absurd h2.1 (not_le.mpr hlt.2)⟩
  · exact ⟨iff_of_false (by decide) (fun hc => h1 ⟨hc.1, hc.2⟩),
      iff_of_false (by decide) (fun hc => h2 ⟨hc.1, hc.2⟩),
      fun _ => rfl, fun _ => rfl⟩

lemma health_shouldi : calculateHealthcareConfidence "should i" = 3/10 := by
  have h1 : (healthcareKeywords.filter
      (kwHit (List.map Char.toLower "should i".toList))).length = 0 := by decide
  have h2 : hasHealthQuestions (List.map Char.toLower "should i".toList) = true := by
    decide
  have h3 : hasScreeningIntent (List.map Char.toLower "should i".toList) = false := by
    decide
  have h4 : hasNewsIntent (List.map Char.toLower "should i".toList) = false := by
    decide
  simp only [calculateHealthcareConfidence, h1, h2, h3, h4]
  norm_num [jsMin]

lemma personal_shouldi : calculatePersonalConfidence "should i" = 3/10 := by
  have h1 : healthcareIndicators.any
      (kwHit (List.map Char.toLower "should i".toList)) = false := by decide
  have h2 : personalKeywords.any
      (kwHit (List.map Char.toLower "should i".toList)) = false := by decide
  have h3 : contextKeywords.any
      (kwHit (List.map Char.toLower "should i".toList)) = false := by decide
  simp only [calculatePersonalConfidence, h1, h2, h3]
  norm_num

/-- Witness for C1 at the concrete tie `"should i"` (both scores 0.3). -/
theorem c1_routing_policy_witness : routeMessage "should i" = Agent.general := by
  exact (c1_routing_policy "should i").2.2.1
    (by rw [health_shouldi, personal_shouldi])

lemma health_asdf : calculateHealthcareConfidence "asdf qwer" = 2/5 := by
  have h1 : (healthcareKeywords.filter
      (kwHit (List.map Char.toLower "asdf qwer".toList))).length = 1 := by decide
  have h2 : hasHealthQuestions (List.map Char.toLower "asdf qwer".toList) = false := by
    decide
  have h3 : hasScreeningIntent (List.map Char.toLower "asdf qwer".toList) = false := by
    decide
  have h4 : hasNewsIntent (List.map Char.toLower "asdf qwer".toList) = false := by
    decide
  simp only [calculateHealthcareConfidence, h1, h2, h3, h4]
  norm_num [jsMin]

lemma personal_asdf : calculatePersonalConfidence "asdf qwer" = 3/10 := by
  have h1 : healthcareIndicators.any
      (kwHit (List.map Char.toLower "asdf qwer".toList)) = false := by decide
  have h2 : personalKeywords.any
      (kwHit (List.map Char.toLower "asdf qwer".toList)) = false := by decide
  have h3 : contextKeywords.any
      (kwHit (List.map Char.toLower "asdf qwer".toList)) = false := by decide
  simp only [calculatePersonalConfidence, h1, h2, h3]
  norm_num

lemma route_asdf : routeMessage "asdf qwer" = Agent.healthcare := by
  have hr : routeMessage "asdf qwer" =
      if calculateHealthcareConfidence "asdf qwer" ≥ (0.3:ℚ) ∧
          calculateHealthcareConfidence "asdf qwer" >
            calculatePersonalConfidence "asdf qwer" then
        Agent.healthcare
      else if calculatePersonalConfidence "asdf qwer" ≥ (0.3:ℚ) ∧
          calculatePersonalConfidence "asdf qwer" >
            calculateHealthcareConfidence "asdf qwer" then
        Agent.personal
      else Agent.general := rfl
  rw [hr, health_asdf, personal_asdf]
  norm_num

/-- C2 counterexample: on `"asdf qwer"` the scores are not both below 0.3
(the healthcare score is 0.4, via the vocabulary entry `"er"` occurring
inside `"qwer"`), and the Router does not select the general fallback. -/
theorem c2_counterexample :
    ¬(calculateHealthcareConfidence "asdf qwer" < 0.3 ∧
      calculatePersonalConfidence "asdf qwer" < 0.3 ∧
      routeMessage "asdf qwer" = Agent.general) := by
  intro h
  have := h.1
  rw [health_asdf] at this
  norm_num at this

/-- C2 amended: on `"asdf qwer"` the healthcare score is 0.4, the personal
score is exactly 0.3, and the Router selects the healthcare handler. -/
theorem c2_amended :
    calculateHealthcareConfidence "asdf qwer" = 2/5 ∧
    calculatePersonalConfidence "asdf qwer" = 3/10 ∧
    routeMessage "asdf qwer" = Agent.healthcare :=
  ⟨health_asdf, personal_asdf, route_asdf⟩

/-- C5: the personal confidence computed by the code agrees with the
spec's case description on every input. -/
theorem c5_personal_score_spec (m : String) :
    calculatePersonalConfidence m = specPersonalScore m := by
  simp only [calculatePersonalConfidence, specPersonalScore]
  cases hh : healthcareIndicators.any (kwHit (List.map Char.toLower m.toList)) <;>
    cases hp : personalKeywords.any (kwHit (List.map Char.toLower m.toList)) <;>
      cases hc : contextKeywords.any (kwHit (List.map Char.toLower m.toList)) <;>
        simp [hh, hp, hc]


lemma if_add (b : Bool) (a c : ℚ) :
    (if b = true then a + c else a) = a + (if b = true then c else 0) := by
  cases b <;> simp

lemma clampFacts (x : ℚ) (hx : 0 ≤ x) :
    min x 1 = max 0 (min x 1) ∧ 0 ≤ min x 1 ∧ min x 1 ≤ 1 := by
  have h0 : (0:ℚ) ≤ min x 1 := le_min hx (by norm_num)
  exact ⟨(max_eq_right h0).symm, h0, min_le_right x 1⟩

/-- C6: the healthcare confidence computed by the code equals the spec's
formula with the `[0, 1]` clamp, and always lies in `[0, 1]`. -/
theorem c6_healthcare_score_spec (m : String) :
    calculateHealthcareConfidence m = specHealthcareScore m ∧
    0 ≤ calculateHealthcareConfidence m ∧
    calculateHealthcareConfidence m ≤ 1 := by
  simp only [calculateHealthcareConfidence, specHealthcareScore, if_add,
    jsMin_eq_min]
  set hits := (healthcareKeywords.filter
    (kwHit (List.map Char.toLower m.toList))).length with hdef
  set i1 : ℚ :=
    if hasHealthQuestions (List.map Char.toLower m.toList) then 0.3 else 0
  set i2 : ℚ :=
    if hasScreeningIntent (List.map Char.toLower m.toList) then 0.4 else 0
  set i3 : ℚ :=
    if hasNewsIntent (List.map Char.toLower m.toList) then 0.15 else 0
  have hbase : (0:ℚ) ≤ min ((hits : ℚ) / 2.5) 0.5 :=
    le_min (by positivity) (by norm_num)
  have h1 : (0:ℚ) ≤ i1 := by simp only [i1]; split_ifs <;> norm_num
  have h2 : (0:ℚ) ≤ i2 := by simp only [i2]; split_ifs <;> norm_num
  have h3 : (0:ℚ) ≤ i3 := by simp only [i3]; split_ifs <;> norm_num
  have hx : (0:ℚ) ≤ min ((hits : ℚ) / 2.5) 0.5 + i1 + i2 + i3 := by linarith
  exact clampFacts _ hx

lemma pushTurn_length {h : List ConversationHistory} (t : ConversationHistory)
    (hl : h.length ≤ 10) : (pushTurn h t).length ≤ 10 := by
  simp only [pushTurn, List.length_append, List.length_cons, List.length_nil]
  split_ifs with hgt
  · simp only [List.length_drop, List.length_append, List.length_cons,
      List.length_nil]
    omega
  · simp only [List.length_append, List.length_cons, List.length_nil]
    omega

lemma pushTurn_keep {h : List ConversationHistory} (t : ConversationHistory)
    (hl : h.length < 10) : pushTurn h t = h ++ [t] := by
  simp only [pushTurn, List.length_append, List.length_cons, List.length_nil]
  split_ifs with hgt
  · omega
  · rfl

lemma pushTurn_evict {h : List ConversationHistory} (t : ConversationHistory)
    (hl : h.length = 10) : pushTurn h t = h.drop 1 ++ [t] := by
  simp only [pushTurn, List.length_append, List.length_cons, List.length_nil]
  split_ifs with hgt
  · rw [show h.length + 1 - 10 = 1 by omega, List.drop_append_eq_append_drop,
      show 1 - h.length = 0 by omega]
    simp
  · omega

lemma historyFold_aux (ts : List ConversationHistory) :
    ∀ acc : List ConversationHistory, acc.length ≤ 10 →
      (ts.foldl pushTurn acc).length ≤ 10 := by
  induction ts with
  | nil => intro acc h; simpa using h
  | cons t ts ih =>
      intro acc h
      exact ih (pushTurn acc t) (pushTurn_length t h)

/-- C3: starting from any history of at most 10 turns, one
`processMessage` history update keeps the length at 10 or below, appends
the new turn at the tail, and at capacity evicts exactly the oldest entry;
moreover any sequence of updates from the empty history stays within 10. -/
theorem c3_history_bounded :
    (∀ (h : List ConversationHistory) (t : ConversationHistory),
      h.length ≤ 10 →
        (pushTurn h t).length ≤ 10 ∧
        (h.length < 10 → pushTurn h t = h ++ [t]) ∧
        (h.length = 10 → pushTurn h t = h.drop 1 ++ [t])) ∧
    (∀ ts : List ConversationHistory, (historyFold ts).length ≤ 10) :=
  ⟨fun h t hl => ⟨pushTurn_length t hl,
      fun hlt => pushTurn_keep t hlt,
      fun heq => pushTurn_evict t heq⟩,
    fun ts => historyFold_aux ts [] (by simp)⟩

/-- Witness for C3 at a concrete history and turn. -/
theorem c3_history_bounded_witness :
    (pushTurn [] ⟨"hi there", "hello", "2024-01-01"⟩).length ≤ 10 ∧
    (([] : List ConversationHistory).length < 10 →
      pushTurn [] ⟨"hi there", "hello", "2024-01-01"⟩ =
        [] ++ [⟨"hi there", "hello", "2024-01-01"⟩]) ∧
    (([] : List ConversationHistory).length = 10 →
      pushTurn [] ⟨"hi there", "hello", "2024-01-01"⟩ =
        ([] : List ConversationHistory).drop 1 ++
          [⟨"hi there", "hello", "2024-01-01"⟩]) :=
  c3_history_bounded.1 [] ⟨"hi there", "hello", "2024-01-01"⟩ (by decide)


/-- C9: the follow-up generator returns exactly the spec's ordered list of
canned questions for missing fields, truncated to at most two. -/
theorem c9_followups_spec (ctx : UserContext) :
    generateFollowUpQuestions ctx = specFollowUps ctx ∧
    (generateFollowUpQuestions ctx).length ≤ 2 := by
  constructor
  · simp only [generateFollowUpQuestions, specFollowUps]
    cases hn : strTruthy ctx.name <;> cases ha : strTruthy ctx.age <;>
      cases hl : strTruthy ctx.location <;>
        cases hi : (ctx.interests.getD []).isEmpty <;>
          simp_all [List.isEmpty_iff]
  · simp only [generateFollowUpQuestions]
    exact List.length_take_le 2 _

/-- C10: with a non-empty `initialContext`, every present key replaces the
stored field wholesale (object spread), including empty strings and whole
interests arrays; an empty `initialContext` leaves the stored context
unchanged. -/
theorem c10_initial_context_spread (stored init : UserContext) :
    (keyCount init = 0 → applyInitialContext stored init = stored) ∧
    (0 < keyCount init →
      (applyInitialContext stored init).name =
        (match init.name with | some v => some v | none => stored.name) ∧
      (applyInitialContext stored init).age =
        (match init.age with | some v => some v | none => stored.age) ∧
      (applyInitialContext stored init).location =
        (match init.location with | some v => some v | none => stored.location) ∧
      (applyInitialContext stored init).interests =
        (match init.interests with | some v => some v | none => stored.interests) ∧
      (applyInitialContext stored init).favorites =
        (match init.favorites with | some v => some v | none => stored.favorites) ∧
      (applyInitialContext stored init).profession =
        (match init.profession with
         | some v => some v | none => stored.profession)) ∧
    (init.name = some "" → (applyInitialContext stored init).name = some "") ∧
    (init.interests = some [] →
      (applyInitialContext stored init).interests = some []) := by
  refine ⟨?_, ?_, ?_, ?_⟩
  · intro h0
    have hn : init.name = none := by
      cases hv : init.name <;> simp [keyCount, hv] at h0 ⊢
    have ha : init.age = none := by
      cases hv : init.age <;> simp [keyCount, hv] at h0 ⊢
    have hl : init.location = none := by
      cases hv : init.location <;> simp [keyCount, hv] at h0 ⊢
    have hi : init.interests = none := by
      cases hv : init.interests <;> simp [keyCount, hv] at h0 ⊢
    have hf : init.favorites = none := by
      cases hv : init.favorites <;> simp [keyCount, hv] at h0 ⊢
    have hp : init.profession = none := by
      cases hv : init.profession <;> simp [keyCount, hv] at h0 ⊢
    simp [applyInitialContext, h0]
  · intro hpos
    simp only [applyInitialContext, if_pos hpos]
    exact ⟨rfl, rfl, rfl, rfl, rfl, rfl⟩
  · intro hn
    have hpos : 0 < keyCount init := by simp [keyCount, hn]
    simp [applyInitialContext, hpos, spreadCtx, hn]
  · intro hi
    have hpos : 0 < keyCount init := by simp [keyCount, hi]
    simp [applyInitialContext, hpos, spreadCtx, hi]

/-- Witness for C10 at a concrete stored context and a concrete
`initialContext` carrying an empty name. -/
theorem c10_initial_context_spread_witness :
    (applyInitialContext
        ⟨some "Bob", none, none, some ["chess"], none, none⟩
        ⟨some "", none, none, none, none, none⟩).name = some "" :=
  (c10_initial_context_spread
    ⟨some "Bob", none, none, some ["chess"], none, none⟩
    ⟨some "", none, none, none, none, none⟩).2.2.1 rfl

lemma interestStep_mem {a : String} {acc : List String} (h : a ∈ acc)
    (i : String) : a ∈ interestStep acc i := by
  simp only [interestStep]
  split_ifs with hi
  · exact h
  · exact List.mem_append_left _ h

lemma mergeInterests_mem_left {a : String} {inc : List String} :
    ∀ {acc : List String}, a ∈ acc → a ∈ mergeInterests acc inc := by
  induction inc with
  | nil => intro acc h; exact h
  | cons i rest ih =>
      intro acc h
      exact ih (interestStep_mem h i)

lemma mergeInterests_mem_inc {a : String} {inc : List String} (h : a ∈ inc) :
    ∀ acc : List String, a ∈ mergeInterests acc inc := by
  induction inc with
  | nil => cases h
  | cons i rest ih =>
      intro acc
      rcases List.mem_cons.mp h with rfl | hmem
      · have hstep : mergeInterests acc (a :: rest) =
            mergeInterests (interestStep acc a) rest := rfl
        rw [hstep]
        refine mergeInterests_mem_left ?_
        simp only [interestStep]
        split_ifs with hi
        · exact hi
        · exact List.mem_append_right _ (List.mem_singleton.mpr rfl)
      · exact ih hmem (interestStep acc i)

lemma mergeInterests_nodup {inc : List String} :
    ∀ {acc : List String}, acc.Nodup → (mergeInterests acc inc).Nodup := by
  induction inc with
  | nil => intro acc h; exact h
  | cons i rest ih =>
      intro acc h
      refine ih ?_
      simp only [interestStep]
      split_ifs with hi
      · exact h
      · simp [List.nodup_append, h, hi]

lemma mergeInterests_grow (inc : List String) :
    ∀ acc : List String, ∃ t, mergeInterests acc inc = acc ++ t := by
  induction inc with
  | nil => intro acc; exact ⟨[], by simp [mergeInterests]⟩
  | cons i rest ih =>
      intro acc
      obtain ⟨t, ht⟩ := ih (interestStep acc i)
      by_cases hi : i ∈ acc
      · exact ⟨t, by simpa [mergeInterests, interestStep, hi] using ht⟩
      · refine ⟨[i] ++ t, ?_⟩
        simp only [interestStep, if_neg hi] at ht
        have hstep : mergeInterests acc (i :: rest) =
            mergeInterests (acc ++ [i]) rest := by
          simp [mergeInterests, interestStep, hi]
        rw [hstep, ht, List.append_assoc]

lemma mergeInterests_of_sub {inc : List String} :
    ∀ {acc : List String}, (∀ i ∈ inc, i ∈ acc) →
      mergeInterests acc inc = acc := by
  induction inc with
  | nil => intro acc _; rfl
  | cons i rest ih =>
      intro acc h
      have hstep : interestStep acc i = acc := by
        simp [interestStep, h i (List.mem_cons_self i rest)]
      have : mergeInterests acc (i :: rest) =
          mergeInterests (interestStep acc i) rest := rfl
      rw [this, hstep]
      exact ih (fun j hj => h j (List.mem_cons_of_mem i hj))

lemma mergeInterests_idem (acc inc : List String) :
    mergeInterests (mergeInterests acc inc) inc = mergeInterests acc inc :=
  mergeInterests_of_sub (fun _ hi => mergeInterests_mem_inc hi _)

lemma mergeContext_interests_nodup {cur inc : UserContext}
    (h : (cur.interests.getD []).Nodup) :
    ((mergeContext cur inc).interests.getD []).Nodup := by
  simp only [mergeContext]
  cases hi : inc.interests with
  | none => exact h
  | some l =>
      by_cases hl : 0 < l.length
      · simpa [hl] using mergeInterests_nodup h
      · simpa [hl] using h

lemma foldCtx_interests_nodup (incs : List UserContext) :
    ∀ cur : UserContext, (cur.interests.getD []).Nodup →
      ((incs.foldl mergeContext cur).interests.getD []).Nodup := by
  induction incs with
  | nil => intro cur h; exact h
  | cons inc rest ih =>
      intro cur h
      exact ih (mergeContext cur inc) (mergeContext_interests_nodup h)

/-- C7: one merge preserves interest dedup, only appends (the previous
collection is an initial segment of the new one), contains every incoming
interest, and is the identity when every incoming interest is already
present; any sequence of merges from the empty context keeps the
interests duplicate-free. -/
theorem c7_interests_dedup :
    (∀ cur inc : UserContext, (cur.interests.getD []).Nodup →
      ((mergeContext cur inc).interests.getD []).Nodup ∧
      (∃ t, (mergeContext cur inc).interests.getD [] =
        cur.interests.getD [] ++ t) ∧
      (∀ i ∈ inc.interests.getD [],
        i ∈ (mergeContext cur inc).interests.getD []) ∧
      ((∀ i ∈ inc.interests.getD [], i ∈ cur.interests.getD []) →
        (mergeContext cur inc).interests.getD [] =
          cur.interests.getD [])) ∧
    (∀ incs : List UserContext,
      ((incs.foldl mergeContext
        ⟨none, none, none, none, none, none⟩).interests.getD []).Nodup) := by
  constructor
  · intro cur inc h
    refine ⟨mergeContext_interests_nodup h, ?_, ?_, ?_⟩
    · simp only [mergeContext]
      cases hi : inc.interests with
      | none => exact ⟨[], by simp⟩
      | some l =>
          by_cases hl : 0 < l.length
          · simpa [hl] using mergeInterests_grow l (cur.interests.getD [])
          · exact ⟨[], by simp [hl]⟩
    · intro i hi
      simp only [mergeContext]
      cases hv : inc.interests with
      | none => simp [hv] at hi
      | some l =>
          rw [hv] at hi
          simp only [Option.getD_some] at hi
          have hl : 0 < l.length := List.length_pos_of_mem hi
          simpa [hl] using mergeInterests_mem_inc hi (cur.interests.getD [])
    · intro hsub
      simp only [mergeContext]
      cases hv : inc.interests with
      | none => simp
      | some l =>
          by_cases hl : 0 < l.length
          · rw [hv] at hsub
            simp only [Option.getD_some] at hsub
            simpa [hl] using mergeInterests_of_sub hsub
          · simp [hl]
  · intro incs
    exact foldCtx_interests_nodup incs _ (by simp)

/-- Witness for C7 at a concrete context and incoming merge. -/
theorem c7_interests_dedup_witness :
    (((mergeContext ⟨none, none, none, some ["chess"], none, none⟩
        ⟨none, none, none, some ["chess", "go"], none, none⟩).interests.getD
          []).Nodup ∧
      (∃ t, (mergeContext ⟨none, none, none, some ["chess"], none, none⟩
          ⟨none, none, none, some ["chess", "go"], none, none⟩).interests.getD
            [] = ["chess"] ++ t) ∧
      (∀ i ∈ ["chess", "go"],
        i ∈ (mergeContext ⟨none, none, none, some ["chess"], none, none⟩
          ⟨none, none, none, some ["chess", "go"], none,
            none⟩).interests.getD []) ∧
      ((∀ i ∈ ["chess", "go"], i ∈ ["chess"]) →
        (mergeContext ⟨none, none, none, some ["chess"], none, none⟩
          ⟨none, none, none, some ["chess", "go"], none,
            none⟩).interests.getD [] = ["chess"])) :=
  c7_interests_dedup.1 ⟨none, none, none, some ["chess"], none, none⟩
    ⟨none, none, none, some ["chess", "go"], none, none⟩ (by decide)

lemma map_self {α : Type} {f : α → α} :
    ∀ {l : List α}, (∀ x ∈ l, f x = x) → l.map f = l := by
  intro l
  induction l with
  | nil => intro _; rfl
  | cons x xs ih =>
      intro h
      simp only [List.map_cons]
      rw [h x (List.mem_cons_self x xs), ih (fun y hy => h y (List.mem_cons_of_mem x hy))]

lemma stable_setKey (l : List (String × String)) (k v : String) :
    stableFor k v (setKey l k v) := by
  simp only [setKey]
  split_ifs with hk
  · constructor
    · intro e he hek
      obtain ⟨p, hp, rfl⟩ := List.mem_map.mp he
      by_cases hp1 : p.1 = k
      · simp [hp1]
      · simp only [if_neg hp1] at hek ⊢
        exact absurd hek hp1
    · obtain ⟨p, hp, hpk⟩ := List.mem_map.mp hk
      refine List.mem_map.mpr ⟨(k, v), List.mem_map.mpr ⟨p, hp, ?_⟩, rfl⟩
      simp [hpk]
  · constructor
    · intro e he hek
      rcases List.mem_append.mp he with hl | hr
      · exact absurd (List.mem_map.mpr ⟨e, hl, hek⟩) hk
      · simpa using hr
    · simp

lemma stable_favStep {k v : String} {l : List (String × String)}
    (h : stableFor k v l) {q : String × String} (hq : q.1 ≠ k) :
    stableFor k v (favStep l q) := by
  simp only [favStep]
  split_ifs with hv
  · exact h
  · simp only [setKey]
    split_ifs with hm
    · constructor
      · intro e he hek
        obtain ⟨p, hp, rfl⟩ := List.mem_map.mp he
        by_cases hp1 : p.1 = q.1
        · simp only [if_pos hp1] at hek ⊢
          exact absurd hek hq
        · simp only [if_neg hp1] at hek ⊢
          exact h.1 p hp hek
      · obtain ⟨p, hp, hpk⟩ := List.mem_map.mp h.2
        refine List.mem_map.mpr ⟨p, List.mem_map.mpr ⟨p, hp, ?_⟩, hpk⟩
        rw [if_neg]
        rw [hpk]
        exact fun hcon => hq (hcon ▸ rfl)
    · constructor
      · intro e he hek
        rcases List.mem_append.mp he with hl | hr
        · exact h.1 e hl hek
        · simp only [List.mem_singleton] at hr
          subst hr
          exact absurd hek hq
      · rw [List.map_append]
        exact List.mem_append_left _ h.2

lemma stable_mergeFavs {k v : String} {rest : List (String × String)} :
    ∀ {l : List (String × String)}, stableFor k v l →
      (∀ q ∈ rest, q.1 ≠ k) → stableFor k v (mergeFavs l rest) := by
  induction rest with
  | nil => intro l h _; exact h
  | cons q rest ih =>
      intro l h hr
      have hstep : mergeFavs l (q :: rest) = mergeFavs (favStep l q) rest := rfl
      rw [hstep]
      exact ih (stable_favStep h (hr q (List.mem_cons_self q rest)))
        (fun r hrr => hr r (List.mem_cons_of_mem q hrr))

lemma setKey_of_stable {k v : String} {l : List (String × String)}
    (h : stableFor k v l) : setKey l k v = l := by
  simp only [setKey, if_pos h.2]
  refine map_self ?_
  intro p hp
  by_cases hp1 : p.1 = k
  · rw [if_pos hp1, h.1 p hp hp1]
  · rw [if_neg hp1]

lemma mergeFavs_idem {inc : List (String × String)}
    (hkeys : (inc.map Prod.fst).Nodup) :
    ∀ cur : List (String × String),
      mergeFavs (mergeFavs cur inc) inc = mergeFavs cur inc := by
  induction inc with
  | nil => intro cur; rfl
  | cons q rest ih =>
      intro cur
      simp only [List.map_cons, List.nodup_cons] at hkeys
      obtain ⟨hq1, hrest⟩ := hkeys
      have hstep : ∀ x : List (String × String),
          mergeFavs x (q :: rest) = mergeFavs (favStep x q) rest := fun _ => rfl
      rw [hstep, hstep]
      cases hb : q.2 == "" with
      | true =>
          simp only [favStep, hb, if_true]
          exact ih hrest cur
      | false =>
          simp only [favStep, hb, Bool.false_eq_true, if_false]
          have hkeysne : ∀ r ∈ rest, r.1 ≠ q.1 := by
            intro r hr hcon
            exact hq1 (List.mem_map.mpr ⟨r, hr, hcon⟩)
          have hst : stableFor q.1 q.2 (mergeFavs (setKey cur q.1 q.2) rest) :=
            stable_mergeFavs (stable_setKey cur q.1 q.2) hkeysne
          rw [setKey_of_stable hst]
          exact ih hrest (setKey cur q.1 q.2)

/-- C8: merging the same incoming partial context twice is the same as
merging it once, provided the incoming favorites record has (as any
JavaScript `Record<string, string>` does) no duplicate keys. -/
theorem c8_merge_idempotent (cur inc : UserContext)
    (hkeys : ((inc.favorites.getD []).map Prod.fst).Nodup) :
    mergeContext (mergeContext cur inc) inc = mergeContext cur inc := by
  refine UserContext.ext ?_ ?_ ?_ ?_ ?_ ?_
  · simp only [mergeContext]
    split_ifs <;> rfl
  · simp only [mergeContext]
    split_ifs <;> rfl
  · simp only [mergeContext]
    split_ifs <;> rfl
  · simp only [mergeContext]
    cases hv : inc.interests with
    | none => rfl
    | some l =>
        by_cases hl : 0 < l.length
        · simp only [if_pos hl, Option.getD_some]
          rw [mergeInterests_idem]
        · simp only [if_neg hl]
  · simp only [mergeContext]
    cases hv : inc.favorites with
    | none => rfl
    | some favs =>
        simp only [Option.getD_some]
        rw [hv] at hkeys
        simp only [Option.getD_some] at hkeys
        rw [mergeFavs_idem hkeys]
  · simp only [mergeContext]
    split_ifs <;> rfl

/-- Witness for C8 at concrete contexts with a duplicate-free favorites
record. -/
theorem c8_merge_idempotent_witness :
    mergeContext
        (mergeContext
          ⟨some "Bob", none, none, some ["chess"],
            some [("color", "blue")], none⟩
          ⟨some "Alice", some "", none, some ["chess", "go"],
            some [("color", "red"), ("food", "pasta")], none⟩)
        ⟨some "Alice", some "", none, some ["chess", "go"],
          some [("color", "red"), ("food", "pasta")], none⟩ =
      mergeContext
        ⟨some "Bob", none, none, some ["chess"],
          some [("color", "blue")], none⟩
        ⟨some "Alice", some "", none, some ["chess", "go"],
          some [("color", "red"), ("food", "pasta")], none⟩ :=
  c8_merge_idempotent
    ⟨some "Bob", none, none, some ["chess"], some [("color", "blue")], none⟩
    ⟨some "Alice", some "", none, some ["chess", "go"],
      some [("color", "red"), ("food", "pasta")], none⟩ (by decide)

lemma matchNameAt_none {pat l : List Char} (h : ciAt pat l = false) :
    matchNameAt pat l = none := by
  induction pat generalizing l with
  | nil => simp [ciAt] at h
  | cons p ps ih =>
      cases l with
      | nil => rfl
      | cons c cs =>
          by_cases hc : (c.toLower == p) = true
          · simp only [matchNameAt, hc, if_true]
            apply ih
            simpa [ciAt, hc] using h
          · simp [matchNameAt, hc]

lemma matchNameAt_self :
    ∀ pat : List Char, (∀ c ∈ pat, (c.toLower == c) = true) →
      ∀ rest, matchNameAt pat (pat ++ rest) = lazyCapture rest := by
  intro pat
  induction pat with
  | nil => intro _ rest; rfl
  | cons p ps ih =>
      intro h rest
      have hp := h p (List.mem_cons_self p ps)
      simp only [List.cons_append, matchNameAt, hp, if_true]
      exact ih (fun c hc => h c (List.mem_cons_of_mem p hc)) rest

lemma lazyCaptureGo_letters :
    ∀ mid : List Char,
      (∀ x ∈ mid, isTermChar x = false ∧ isNameChar x = true) →
      ∀ acc s : List Char,
        lazyCaptureGo acc (mid ++ s) = lazyCaptureGo (acc ++ mid) s := by
  intro mid
  induction mid with
  | nil => intro _ acc s; simp
  | cons x xs ih =>
      intro h acc s
      have hx := h x (List.mem_cons_self x xs)
      simp only [List.cons_append, lazyCaptureGo, hx.1, hx.2,
        Bool.false_eq_true, if_false, if_true, List.append_eq]
      rw [ih (fun y hy => h y (List.mem_cons_of_mem x hy)) (acc ++ [x]) s]
      simp [List.append_assoc]

/-- C4 counterexample: both texts contain the substring
`"my name is Alice"`, yet on the first (a `!` right after the phrase) the
extractor yields no name at all, and on the second (an earlier competing
phrase) it yields `"Bob"`. -/
theorem c4_counterexample :
    containsSub "my name is Alice".toList "my name is Alice!".toList = true ∧
    extractName "my name is Alice!" = none ∧
    containsSub "my name is Alice".toList
      "my name is Bob, my name is Alice.".toList = true ∧
    extractName "my name is Bob, my name is Alice." = some "Bob" := by
  refine ⟨by decide, by decide, by decide, by decide⟩

/-- C4 amended: if no position strictly before the phrase matches the
literal `my name is ` case-insensitively, and the phrase
`"my name is Alice"` is followed by end-of-text, whitespace, a comma or a
period, then the extractor yields exactly `"Alice"`. -/
theorem c4_name_extraction (p s : List Char)
    (hleft : ∀ i, i < p.length →
      ciAt namePat ((p ++ midAlice ++ s).drop i) = false)
    (hterm : s = [] ∨ ∃ c cs, s = c :: cs ∧ isTermChar c = true) :
    extractNameL (p ++ midAlice ++ s) = some aliceL := by
  induction p with
  | nil =>
      have htry : tryName (midAlice ++ s) = some aliceL := by
        have hmid : midAlice = namePat ++ aliceL := by decide
        rw [tryName, hmid, List.append_assoc,
          matchNameAt_self namePat (by decide) (aliceL ++ s)]
        rw [show aliceL = 'A' :: "lice".toList from by decide,
          List.cons_append]
        simp only [lazyCapture]
        rw [if_pos (by decide : isNameChar 'A' = true)]
        rw [lazyCaptureGo_letters "lice".toList (by decide) ['A'] s]
        rw [show (['A'] ++ "lice".toList : List Char) =
          'A' :: "lice".toList from rfl]
        rw [show ('A' :: "lice".toList : List Char) = aliceL from by decide]
        rcases hterm with rfl | ⟨c, cs, rfl, hc⟩
        · rfl
        · simp only [lazyCaptureGo, hc, if_true]
      have hscan : scanName (midAlice ++ s) = some aliceL := by
        rw [show midAlice ++ s =
          'm' :: ("y name is Alice".toList ++ s) from rfl]
        simp only [scanName]
        rw [show ('m' :: ("y name is Alice".toList ++ s) : List Char) =
          midAlice ++ s from rfl, htry]
      simp only [List.nil_append, extractNameL, hscan]
      rw [show Option.map trimChars (some aliceL) =
        some (trimChars aliceL) from rfl]
      rw [show trimChars aliceL = aliceL from by decide]
  | cons c p' ih =>
      have h0 := hleft 0 (by simp)
      rw [List.drop_zero] at h0
      have hnone : tryName (c :: (p' ++ midAlice ++ s)) = none := by
        rw [tryName]
        exact matchNameAt_none h0
      have hshift : ∀ i, i < p'.length →
          ciAt namePat ((p' ++ midAlice ++ s).drop i) = false := by
        intro i hi
        have h1 := hleft (i + 1) (by simp; omega)
        rwa [show (c :: p') ++ midAlice ++ s =
          c :: (p' ++ midAlice ++ s) from rfl, List.drop_succ_cons] at h1
      show extractNameL (c :: (p' ++ midAlice ++ s)) = some aliceL
      simp only [extractNameL, scanName, hnone]
      exact ih hshift

/-- Witness for C4 at the concrete text `"Hi, my name is Alice."`. -/
theorem c4_name_extraction_witness :
    extractNameL ("Hi, ".toList ++ midAlice ++ ".".toList) = some aliceL :=
  c4_name_extraction "Hi, ".toList ".".toList (by decide)
    (Or.inr ⟨'.', [], by decide, by decide⟩)

end M32
